import Mathlib

/-!
Verification development for the Minesweeper deduction engine
(`minesweeper.py`).  The core of the program is the `Sentence` constraint
type and the knowledge-base propagation of `MinesweeperAI`
(`mark_mine`, `mark_safe`, `add_knowledge`, `is_conclusive`,
`conclude_infer_integrate`).

The embedding below mirrors the Python source:

* a board cell is a pair of integers;
* a `Sentence` is a finite set of cells together with an integer count
  (Python integers are unbounded, so `Int` is used for the count);
* `MinesweeperAI` carries the `moves_made`, `mines`, `safes` sets and
  the `knowledge` list (Python keeps `knowledge` as a list, and the
  list order is observable through iteration and `list.remove`, so the
  embedding keeps a `List`);
* the mutually recursive procedures of the class are embedded as a
  single fuel-indexed interpreter `run` over a small command type, so
  that the recursion is structural on the fuel and the kernel can
  evaluate concrete executions.  Fuel exhaustion yields `none`; any
  `some` result is a faithfully completed execution of the Python code.

Python-semantics notes reflected below:

* `for sentence in self.knowledge` iterates by index over the list that
  is being mutated; `self.knowledge.remove(x)` removes the first
  element equal (`__eq__`) to `x`.  Both are modelled exactly
  (`markMineLoop` / `markSafeLoop`).
* `Sentence.__eq__` compares the cell set and the count, which is
  exactly structural equality of the `Sentence` structure.
* truthiness: `if safes:` is false both for `None` and for an empty
  set; `optTruthy` models this.
* iteration order over a Python `set` is unspecified; the embedding
  fixes it as the row-major sorted list (`cellList`).  All invariant
  theorems below are proved for arbitrary orders (they quantify over
  the list), so nothing depends on this choice.
-/

abbrev Cell : Type := Int × Int

/-- A logical statement about the game: `count` of the cells in `cells`
are mines (class `Sentence`). -/
structure Sentence where
  cells : Finset Cell
  count : Int
deriving DecidableEq

namespace Sentence

/-- Embedding of `Sentence.is_empty`. -/
def is_empty (s : Sentence) : Bool := decide (s.cells = ∅)

/-- Embedding of `Sentence.known_mines`: the cell set if `count == len(cells)`, else `None`. -/
def known_mines (s : Sentence) : Option (Finset Cell) :=
  if s.count = (s.cells.card : Int) then some s.cells else none

/-- Embedding of `Sentence.known_safes`: the cell set if `count == 0`, else `None`. -/
def known_safes (s : Sentence) : Option (Finset Cell) :=
  if s.count = 0 then some s.cells else none

/-- Embedding of `Sentence.mark_mine`: if present, remove the cell and decrement the
count; the boolean reports whether the sentence changed. -/
def mark_mine (s : Sentence) (cell : Cell) : Sentence × Bool :=
  if cell ∈ s.cells then (⟨s.cells.erase cell, s.count - 1⟩, true) else (s, false)

/-- Embedding of `Sentence.mark_safe`: if present, remove the cell (count unchanged);
the boolean reports whether the sentence changed. -/
def mark_safe (s : Sentence) (cell : Cell) : Sentence × Bool :=
  if cell ∈ s.cells then (⟨s.cells.erase cell, s.count⟩, true) else (s, false)

end Sentence

/-- Row-major order on cells, used to fix an iteration order for Python
sets of cells. -/
def cellLE (a b : Cell) : Prop := a.1 < b.1 ∨ (a.1 = b.1 ∧ a.2 ≤ b.2)

instance : DecidableRel cellLE := fun a b => by unfold cellLE; infer_instance

theorem cellLE_antisymm {a b : Cell} (h1 : cellLE a b) (h2 : cellLE b a) : a = b := by
  obtain ⟨a1, a2⟩ := a; obtain ⟨b1, b2⟩ := b
  unfold cellLE at h1 h2
  simp only [Prod.mk.injEq]
  omega

theorem cellLE_total (a b : Cell) : cellLE a b ∨ cellLE b a := by
  unfold cellLE; omega

theorem cellLE_trans {a b c : Cell} (h1 : cellLE a b) (h2 : cellLE b c) : cellLE a c := by
  unfold cellLE at *; omega

/-- Ordered insertion of a cell into a list. -/
def insCell (c : Cell) : List Cell → List Cell
  | [] => [c]
  | d :: l => if cellLE c d then c :: d :: l else d :: insCell c l

theorem insCell_comm (a b : Cell) (l : List Cell) :
    insCell a (insCell b l) = insCell b (insCell a l) := by
  rcases eq_or_ne a b with rfl | hne
  · rfl
  induction l with
  | nil =>
    rcases cellLE_total a b with h | h
    · have h' : ¬cellLE b a := fun hh => hne (cellLE_antisymm h hh)
      simp [insCell, h, h']
    · have h' : ¬cellLE a b := fun hh => hne (cellLE_antisymm hh h)
      simp [insCell, h, h']
  | cons d l ih =>
    by_cases had : cellLE a d <;> by_cases hbd : cellLE b d
    · rcases cellLE_total a b with h | h
      · have h' : ¬cellLE b a := fun hh => hne (cellLE_antisymm h hh)
        simp [insCell, had, hbd, h, h']
      · have h' : ¬cellLE a b := fun hh => hne (cellLE_antisymm hh h)
        simp [insCell, had, hbd, h, h']
    · have hba : ¬cellLE b a := fun h => hbd (cellLE_trans h had)
      simp [insCell, had, hbd, hba]
    · have hab : ¬cellLE a b := fun h => had (cellLE_trans h hbd)
      simp [insCell, had, hbd, hab]
    · simp [insCell, had, hbd, ih]

instance : LeftCommutative insCell := ⟨insCell_comm⟩

/-- A concrete enumeration of a finite set of cells (Python set
iteration order is unspecified; this embedding uses row-major order). -/
def cellList (cs : Finset Cell) : List Cell := Multiset.foldr insCell [] cs.val

theorem mem_insCell {x a : Cell} {l : List Cell} :
    x ∈ insCell a l ↔ x = a ∨ x ∈ l := by
  induction l with
  | nil => simp [insCell]
  | cons d l ih =>
    by_cases h : cellLE a d
    all_goals simp [insCell, h, ih]
    all_goals tauto

theorem mem_foldr_insCell {x : Cell} (l : List Cell) :
    x ∈ List.foldr insCell [] l ↔ x ∈ l := by
  induction l with
  | nil => simp
  | cons d l ih => simp [mem_insCell, ih]

theorem mem_cellList {cs : Finset Cell} {x : Cell} :
    x ∈ cellList cs ↔ x ∈ cs := by
  rcases cs with ⟨m, nd⟩
  induction m using Quot.inductionOn with
  | h l =>
    show x ∈ Multiset.foldr insCell [] (l : Multiset Cell) ↔ _
    rw [Multiset.coe_foldr]
    simp only [Finset.mem_mk]
    change _ ↔ x ∈ (l : Multiset Cell)
    rw [Multiset.mem_coe]
    exact mem_foldr_insCell l

/-- Python truthiness of an `Option (Finset Cell)`: `None` and the empty
set are falsy (`if safes:` in `is_conclusive`). -/
def optTruthy : Option (Finset Cell) → Bool
  | none => false
  | some cs => decide (cs ≠ ∅)

/-- Embedding of `if inference not in inferences and inference not in self.knowledge:
inferences.append(inference)`. -/
def addNewInference (knowledge acc : List Sentence) (inf : Sentence) : List Sentence :=
  if inf ∉ acc ∧ inf ∉ knowledge then acc ++ [inf] else acc

/-- One step of the inference loop of `conclude_infer_integrate`:
compare `s` with one `other` sentence of the knowledge list and append
the derived inference to the accumulator if it is new. -/
def inferStep (knowledge : List Sentence) (s : Sentence) (acc : List Sentence)
    (other : Sentence) : List Sentence :=
  if s.cells ⊆ other.cells then
    addNewInference knowledge acc ⟨other.cells \ s.cells, other.count - s.count⟩
  else if other.cells ⊆ s.cells then
    addNewInference knowledge acc ⟨s.cells \ other.cells, s.count - other.count⟩
  else acc

/-- The list of inferences collected by the `for other_sentence in
self.knowledge` loop of `conclude_infer_integrate`. -/
def buildInferences (knowledge : List Sentence) (s : Sentence) : List Sentence :=
  knowledge.foldl (inferStep knowledge s) []

/-- Bounds check `0 <= i < height and 0 <= j < width`. -/
def inBounds (hgt wdt : Int) (p : Cell) : Prop :=
  0 ≤ p.1 ∧ p.1 < hgt ∧ 0 ≤ p.2 ∧ p.2 < wdt

instance (hgt wdt : Int) (p : Cell) : Decidable (inBounds hgt wdt p) := by
  unfold inBounds; infer_instance

/-- The nine positions enumerated by the two nested loops of
`add_knowledge` (`range(cell[0]-1, cell[0]+2)` by `range(cell[1]-1,
cell[1]+2)`), in loop order. -/
def boxList (cell : Cell) : List Cell :=
  [(cell.1 - 1, cell.2 - 1), (cell.1 - 1, cell.2), (cell.1 - 1, cell.2 + 1),
   (cell.1, cell.2 - 1), (cell.1, cell.2), (cell.1, cell.2 + 1),
   (cell.1 + 1, cell.2 - 1), (cell.1 + 1, cell.2), (cell.1 + 1, cell.2 + 1)]

/-- Loop body of the neighbour enumeration of `add_knowledge`: skip
out-of-bounds positions and known safes, decrement the count for known
mines, and collect the remaining unknowns. -/
def surroundStep (hgt wdt : Int) (safeSet mineSet : Finset Cell)
    (acc : Finset Cell × Int) (p : Cell) : Finset Cell × Int :=
  if inBounds hgt wdt p then
    if p ∈ safeSet then acc
    else if p ∈ mineSet then (acc.1, acc.2 - 1)
    else (insert p acc.1, acc.2)
  else acc

/-- The `(surrounding_unknowns, count)` pair built by `add_knowledge`
before it calls `conclude_infer_integrate`. -/
def buildSurrounding (hgt wdt : Int) (safeSet mineSet : Finset Cell)
    (cell : Cell) (count : Int) : Finset Cell × Int :=
  (boxList cell).foldl (surroundStep hgt wdt safeSet mineSet) (∅, count)

/-- The state of a `MinesweeperAI` instance. -/
structure MinesweeperAI where
  height : Int
  width : Int
  moves_made : Finset Cell
  mines : Finset Cell
  safes : Finset Cell
  knowledge : List Sentence
deriving DecidableEq

/-- Embedding of `MinesweeperAI.__init__`. -/
def MinesweeperAI.start (hgt wdt : Int) : MinesweeperAI :=
  ⟨hgt, wdt, ∅, ∅, ∅, []⟩

/-- The mutually recursive procedures of `MinesweeperAI`, reified so
that the whole mutual recursion is a single function structural in the
fuel. -/
inductive Cmd where
  | markMine (cell : Cell)
  | markMineLoop (cell : Cell) (i : Nat)
  | markSafe (cell : Cell)
  | markSafeLoop (cell : Cell) (i : Nat)
  | markList (mine : Bool) (cells : List Cell)
  | isConclusive (s : Sentence)
  | cii (s : Sentence)
  | ciiList (l : List Sentence)
  | addKnowledge (cell : Cell) (count : Int)

/-- Fuel-indexed interpreter for the `MinesweeperAI` methods.  `none`
means the fuel ran out; `some (st, b)` is the final state (the boolean
is the return value of `is_conclusive` and is meaningless for the other
commands, which return `False`/`None` in Python). -/
def run : Nat → MinesweeperAI → Cmd → Option (MinesweeperAI × Bool)
  | 0, _, _ => none
  | fuel + 1, st, .markMine cell =>
      run fuel { st with mines := insert cell st.mines } (.markMineLoop cell 0)
  | fuel + 1, st, .markMineLoop cell i =>
      match st.knowledge[i]? with
      | none => some (st, false)
      | some s =>
        match Sentence.mark_mine s cell with
        | (s1, true) =>
          match run fuel { st with knowledge := (st.knowledge.set i s1).erase s1 } (.cii s1) with
          | none => none
          | some p => run fuel p.1 (.markMineLoop cell (i + 1))
        | (_, false) => run fuel st (.markMineLoop cell (i + 1))
  | fuel + 1, st, .markSafe cell =>
      run fuel { st with safes := insert cell st.safes } (.markSafeLoop cell 0)
  | fuel + 1, st, .markSafeLoop cell i =>
      match st.knowledge[i]? with
      | none => some (st, false)
      | some s =>
        match Sentence.mark_safe s cell with
        | (s1, true) =>
          match run fuel { st with knowledge := (st.knowledge.set i s1).erase s1 } (.cii s1) with
          | none => none
          | some p => run fuel p.1 (.markSafeLoop cell (i + 1))
        | (_, false) => run fuel st (.markSafeLoop cell (i + 1))
  | _ + 1, st, .markList _ [] => some (st, false)
  | fuel + 1, st, .markList mine (c :: rest) =>
      match run fuel st (if mine then .markMine c else .markSafe c) with
      | none => none
      | some p => run fuel p.1 (.markList mine rest)
  | fuel + 1, st, .isConclusive s =>
      if optTruthy s.known_safes = true then
        match run fuel st (.markList false (cellList s.cells)) with
        | none => none
        | some p => some (p.1, true)
      else if optTruthy s.known_mines = true then
        match run fuel st (.markList true (cellList s.cells)) with
        | none => none
        | some p => some (p.1, true)
      else some (st, false)
  | fuel + 1, st, .cii s =>
      if s ∈ st.knowledge ∨ s.is_empty = true then some (st, false)
      else
        match run fuel st (.isConclusive s) with
        | none => none
        | some (st1, true) => some (st1, false)
        | some (st1, false) =>
          run fuel { st1 with knowledge := st1.knowledge ++ [s] }
            (.ciiList (buildInferences st1.knowledge s))
  | _ + 1, st, .ciiList [] => some (st, false)
  | fuel + 1, st, .ciiList (s :: rest) =>
      match run fuel st (.cii s) with
      | none => none
      | some p => run fuel p.1 (.ciiList rest)
  | fuel + 1, st, .addKnowledge cell count =>
      match run fuel { st with moves_made := insert cell st.moves_made } (.markSafe cell) with
      | none => none
      | some p =>
        run fuel p.1
          (.cii ⟨(buildSurrounding p.1.height p.1.width p.1.safes p.1.mines cell count).1,
            (buildSurrounding p.1.height p.1.width p.1.safes p.1.mines cell count).2⟩)
termination_by structural fuel _ _ => fuel

/-- Embedding of `MinesweeperAI.mark_mine` (global marking). -/
def MinesweeperAI.mark_mine (fuel : Nat) (st : MinesweeperAI) (cell : Cell) :
    Option MinesweeperAI :=
  (run fuel st (.markMine cell)).map Prod.fst

/-- Embedding of `MinesweeperAI.mark_safe` (global marking). -/
def MinesweeperAI.mark_safe (fuel : Nat) (st : MinesweeperAI) (cell : Cell) :
    Option MinesweeperAI :=
  (run fuel st (.markSafe cell)).map Prod.fst

/-- Embedding of `MinesweeperAI.is_conclusive`. -/
def MinesweeperAI.is_conclusive (fuel : Nat) (st : MinesweeperAI) (s : Sentence) :
    Option (MinesweeperAI × Bool) :=
  run fuel st (.isConclusive s)

/-- Embedding of `MinesweeperAI.conclude_infer_integrate`. -/
def conclude_infer_integrate (fuel : Nat) (st : MinesweeperAI) (s : Sentence) :
    Option MinesweeperAI :=
  (run fuel st (.cii s)).map Prod.fst

/-- Embedding of `MinesweeperAI.add_knowledge`. -/
def add_knowledge (fuel : Nat) (st : MinesweeperAI) (cell : Cell) (count : Int) :
    Option MinesweeperAI :=
  (run fuel st (.addKnowledge cell count)).map Prod.fst

example :
    conclude_infer_integrate 10
      ⟨3, 3, ∅, ∅, ∅, [⟨{(0, 0), (0, 1), (0, 2)}, 1⟩]⟩ ⟨{(0, 0), (0, 1)}, 1⟩ =
      some ⟨3, 3, ∅, ∅, {(0, 2)}, [⟨{(0, 0), (0, 1)}, 1⟩]⟩ := by decide

/-! ### Frame properties

`Mono st st'` records what every method of `MinesweeperAI` preserves:
the board dimensions never change, and the `moves_made`, `mines` and
`safes` sets only grow (nothing is ever removed from them). -/

def Mono (st st' : MinesweeperAI) : Prop :=
  st'.height = st.height ∧ st'.width = st.width ∧
    st.moves_made ⊆ st'.moves_made ∧ st.mines ⊆ st'.mines ∧ st.safes ⊆ st'.safes

theorem Mono.refl (st : MinesweeperAI) : Mono st st :=
  ⟨rfl, rfl, Finset.Subset.refl _, Finset.Subset.refl _, Finset.Subset.refl _⟩

theorem Mono.trans {a b c : MinesweeperAI} (h1 : Mono a b) (h2 : Mono b c) : Mono a c :=
  ⟨h2.1.trans h1.1, h2.2.1.trans h1.2.1, h1.2.2.1.trans h2.2.2.1,
    h1.2.2.2.1.trans h2.2.2.2.1, h1.2.2.2.2.trans h2.2.2.2.2⟩

theorem mono_set_knowledge (st : MinesweeperAI) (k : List Sentence) :
    Mono st { st with knowledge := k } :=
  ⟨rfl, rfl, Finset.Subset.refl _, Finset.Subset.refl _, Finset.Subset.refl _⟩

theorem mono_insert_mines (st : MinesweeperAI) (c : Cell) :
    Mono st { st with mines := insert c st.mines } :=
  ⟨rfl, rfl, Finset.Subset.refl _, Finset.subset_insert _ _, Finset.Subset.refl _⟩

theorem mono_insert_safes (st : MinesweeperAI) (c : Cell) :
    Mono st { st with safes := insert c st.safes } :=
  ⟨rfl, rfl, Finset.Subset.refl _, Finset.Subset.refl _, Finset.subset_insert _ _⟩

theorem mono_insert_moves (st : MinesweeperAI) (c : Cell) :
    Mono st { st with moves_made := insert c st.moves_made } :=
  ⟨rfl, rfl, Finset.subset_insert _ _, Finset.Subset.refl _, Finset.Subset.refl _⟩

/-- A sentence that `conclude_infer_integrate` would consume without
adding it to the knowledge base: resolvable (by Python truthiness) or
empty. -/
def consumable (s : Sentence) : Bool :=
  optTruthy s.known_safes || optTruthy s.known_mines || s.is_empty

/-- Invariant: the knowledge base never holds a consumable sentence. -/
def goodKB (st : MinesweeperAI) : Prop :=
  ∀ s ∈ st.knowledge, consumable s = false

/-- Auxiliary counting bound: overwriting one position with `x` adds at
most one occurrence of `x`. -/
theorem count_set_le (l : List Sentence) (i : Nat) (x : Sentence) :
    (l.set i x).count x ≤ l.count x + 1 := by
  induction l generalizing i with
  | nil => simp
  | cons a l ih =>
    cases i with
    | zero =>
      simp [List.set_cons_zero, List.count_cons]
    | succ i =>
      simp only [List.set_cons_succ, List.count_cons]
      have := ih i
      omega

/-- Membership after the `set`/`erase` dance that models Python's
in-place mutation followed by `list.remove`: any survivor is either an
original sentence or the new value, and if it is the new value then that
value already occurred among the original sentences. -/
theorem mem_set_erase {l : List Sentence} {i : Nat} {x t : Sentence}
    (h : t ∈ (l.set i x).erase x) : t ∈ l ∨ (t = x ∧ x ∈ l) := by
  have hmem : t ∈ l.set i x := List.mem_of_mem_erase h
  rcases List.mem_or_eq_of_mem_set hmem with h1 | rfl
  · exact Or.inl h1
  · right
    refine ⟨rfl, ?_⟩
    have h2 : 0 < ((l.set i t).erase t).count t := List.count_pos_iff.mpr h
    have h3 : ((l.set i t).erase t).count t = (l.set i t).count t - 1 :=
      List.count_erase_self t _
    have h4 := count_set_le l i t
    have : 0 < l.count t := by omega
    exact List.count_pos_iff.mp this

/-- If `is_conclusive` returns `False`, it changed nothing and both
resolvability checks failed. -/
theorem isConclusive_false_char {fuel : Nat} {st st1 : MinesweeperAI} {s : Sentence}
    (h : run fuel st (.isConclusive s) = some (st1, false)) :
    st1 = st ∧ optTruthy s.known_safes = false ∧ optTruthy s.known_mines = false := by
  cases fuel with
  | zero => simp [run] at h
  | succ f =>
    simp only [run] at h
    split at h
    · split at h
      · simp at h
      · simp at h
    · split at h
      · split at h
        · simp at h
        · simp at h
      · next h1 h2 =>
        simp only [Option.some.injEq, Prod.mk.injEq] at h
        exact ⟨h.1.symm, Bool.not_eq_true _ ▸ h1, Bool.not_eq_true _ ▸ h2⟩

/-- The frame theorem: every completed execution preserves the board
dimensions, only grows `moves_made`, `mines` and `safes`, and keeps the
knowledge base free of consumable sentences. -/
theorem run_frame :
    ∀ (fuel : Nat) (st : MinesweeperAI) (cmd : Cmd) (r : MinesweeperAI × Bool),
      run fuel st cmd = some r → Mono st r.1 ∧ (goodKB st → goodKB r.1) := by
  intro fuel
  induction fuel with
  | zero => intro st cmd r h; simp [run] at h
  | succ f ih =>
    intro st cmd r h
    cases cmd with
    | markMine cell =>
      simp only [run] at h
      have h1 := ih _ _ _ h
      exact ⟨(mono_insert_mines st cell).trans h1.1, fun hg => h1.2 hg⟩
    | markMineLoop cell i =>
      simp only [run] at h
      split at h
      · simp only [Option.some.injEq] at h
        subst h
        exact ⟨Mono.refl st, id⟩
      · next s hk =>
        split at h
        · next s1 hm =>
          split at h
          · simp at h
          · next p hr1 =>
            have h1 := ih _ _ _ hr1
            have h2 := ih _ _ _ h
            refine ⟨((mono_set_knowledge st _).trans h1.1).trans h2.1, fun hg => ?_⟩
            refine h2.2 (h1.2 ?_)
            intro t ht
            rcases mem_set_erase ht with h3 | ⟨rfl, h3⟩
            · exact hg t h3
            · exact hg t h3
        · next s1 hm =>
          exact ih _ _ _ h
    | markSafe cell =>
      simp only [run] at h
      have h1 := ih _ _ _ h
      exact ⟨(mono_insert_safes st cell).trans h1.1, fun hg => h1.2 hg⟩
    | markSafeLoop cell i =>
      simp only [run] at h
      split at h
      · simp only [Option.some.injEq] at h
        subst h
        exact ⟨Mono.refl st, id⟩
      · next s hk =>
        split at h
        · next s1 hm =>
          split at h
          · simp at h
          · next p hr1 =>
            have h1 := ih _ _ _ hr1
            have h2 := ih _ _ _ h
            refine ⟨((mono_set_knowledge st _).trans h1.1).trans h2.1, fun hg => ?_⟩
            refine h2.2 (h1.2 ?_)
            intro t ht
            rcases mem_set_erase ht with h3 | ⟨rfl, h3⟩
            · exact hg t h3
            · exact hg t h3
        · next s1 hm =>
          exact ih _ _ _ h
    | markList mine cells =>
      cases cells with
      | nil =>
        simp only [run, Option.some.injEq] at h
        subst h
        exact ⟨Mono.refl st, id⟩
      | cons c rest =>
        simp only [run] at h
        split at h
        · simp at h
        · next p hr1 =>
          have h1 := ih _ _ _ hr1
          have h2 := ih _ _ _ h
          exact ⟨h1.1.trans h2.1, fun hg => h2.2 (h1.2 hg)⟩
    | isConclusive s =>
      simp only [run] at h
      split at h
      · split at h
        · simp at h
        · next p hr1 =>
          simp only [Option.some.injEq] at h
          subst h
          have h1 := ih _ _ _ hr1
          exact ⟨h1.1, fun hg => h1.2 hg⟩
      · split at h
        · split at h
          · simp at h
          · next p hr1 =>
            simp only [Option.some.injEq] at h
            subst h
            have h1 := ih _ _ _ hr1
            exact ⟨h1.1, fun hg => h1.2 hg⟩
        · simp only [Option.some.injEq] at h
          subst h
          exact ⟨Mono.refl st, id⟩
    | cii s =>
      simp only [run] at h
      split at h
      · simp only [Option.some.injEq] at h
        subst h
        exact ⟨Mono.refl st, id⟩
      · next hcond =>
        split at h
        · simp at h
        · next st1 hr1 =>
          simp only [Option.some.injEq] at h
          subst h
          have h1 := ih _ _ _ hr1
          exact ⟨h1.1, fun hg => h1.2 hg⟩
        · next st1 hr1 =>
          have h1 := ih _ _ _ hr1
          have h2 := ih _ _ _ h
          refine ⟨(h1.1.trans (mono_set_knowledge st1 _)).trans h2.1, fun hg => ?_⟩
          refine h2.2 ?_
          intro t ht
          simp only [List.mem_append, List.mem_singleton] at ht
          rcases ht with ht | rfl
          · exact h1.2 hg t ht
          · have hfc := isConclusive_false_char hr1
            have hne : t.is_empty = false := by
              rcases Bool.eq_false_or_eq_true t.is_empty with hb | hb
              · exact absurd (Or.inr hb) hcond
              · exact hb
            simp [consumable, hfc.2.1, hfc.2.2, hne]
    | ciiList l =>
      cases l with
      | nil =>
        simp only [run, Option.some.injEq] at h
        subst h
        exact ⟨Mono.refl st, id⟩
      | cons s rest =>
        simp only [run] at h
        split at h
        · simp at h
        · next p hr1 =>
          have h1 := ih _ _ _ hr1
          have h2 := ih _ _ _ h
          exact ⟨h1.1.trans h2.1, fun hg => h2.2 (h1.2 hg)⟩
    | addKnowledge cell count =>
      simp only [run] at h
      split at h
      · simp at h
      · next p hr1 =>
        have h1 := ih _ _ _ hr1
        have h2 := ih _ _ _ h
        exact ⟨((mono_insert_moves st cell).trans h1.1).trans h2.1,
          fun hg => h2.2 (h1.2 hg)⟩

/-! ### Soundness with respect to a ground-truth mine layout

`struth B s` says sentence `s` is true of the mine set `B`: exactly
`count` of its cells are mines.  Every operation of the knowledge base
preserves truth, which yields the reachable-state invariants of the
specification (`mines`/`safes` disjointness, `0 <= count <= |cells|`). -/

def struth (B : Finset Cell) (s : Sentence) : Prop :=
  s.count = ((s.cells ∩ B).card : Int)

theorem erase_inter_eq (A B : Finset Cell) (c : Cell) :
    A.erase c ∩ B = (A ∩ B).erase c := by
  ext x
  simp only [Finset.mem_inter, Finset.mem_erase]
  tauto

theorem struth_mark_mine {B : Finset Cell} {s : Sentence} {c : Cell}
    (hB : c ∈ B) (hs : struth B s) : struth B (Sentence.mark_mine s c).1 := by
  unfold Sentence.mark_mine
  by_cases hc : c ∈ s.cells
  · simp only [hc, if_true]
    unfold struth at *
    have h1 : s.cells.erase c ∩ B = (s.cells ∩ B).erase c := erase_inter_eq _ _ _
    have h2 : c ∈ s.cells ∩ B := Finset.mem_inter.mpr ⟨hc, hB⟩
    have h3 : ((s.cells ∩ B).erase c).card = (s.cells ∩ B).card - 1 :=
      Finset.card_erase_of_mem h2
    have h4 : 0 < (s.cells ∩ B).card := Finset.card_pos.mpr ⟨c, h2⟩
    simp only [h1, h3]
    omega
  · simp only [hc, if_false]
    exact hs

theorem struth_mark_safe {B : Finset Cell} {s : Sentence} {c : Cell}
    (hB : c ∉ B) (hs : struth B s) : struth B (Sentence.mark_safe s c).1 := by
  unfold Sentence.mark_safe
  by_cases hc : c ∈ s.cells
  · simp only [hc, if_true]
    unfold struth at *
    have h1 : s.cells.erase c ∩ B = s.cells ∩ B := by
      ext x
      simp only [Finset.mem_inter, Finset.mem_erase]
      constructor
      · tauto
      · intro hx
        exact ⟨⟨fun he => hB (he ▸ hx.2), hx.1⟩, hx.2⟩
    simp only [h1]
    exact hs
  · simp only [hc, if_false]
    exact hs

theorem struth_sdiff {B : Finset Cell} {s1 s2 : Sentence}
    (hsub : s1.cells ⊆ s2.cells) (h1 : struth B s1) (h2 : struth B s2) :
    struth B ⟨s2.cells \ s1.cells, s2.count - s1.count⟩ := by
  unfold struth at *
  have e1 : (s2.cells \ s1.cells) ∩ B = (s2.cells ∩ B) \ (s1.cells ∩ B) := by
    ext x
    simp only [Finset.mem_inter, Finset.mem_sdiff]
    constructor
    · tauto
    · intro hx
      exact ⟨⟨hx.1.1, fun h => hx.2 ⟨h, hx.1.2⟩⟩, hx.1.2⟩
  have e2 : s1.cells ∩ B ⊆ s2.cells ∩ B :=
    Finset.inter_subset_inter hsub (Finset.Subset.refl B)
  have e3 : ((s2.cells ∩ B) \ (s1.cells ∩ B)).card =
      (s2.cells ∩ B).card - (s1.cells ∩ B).card := Finset.card_sdiff e2
  have e4 : (s1.cells ∩ B).card ≤ (s2.cells ∩ B).card := Finset.card_le_card e2
  simp only [e1, e3]
  omega

theorem known_safes_truthy {s : Sentence} (h : optTruthy s.known_safes = true) :
    s.count = 0 ∧ s.cells ≠ ∅ := by
  by_cases hc : s.count = 0
  · refine ⟨hc, ?_⟩
    simp only [Sentence.known_safes, hc, if_true, optTruthy, decide_eq_true_eq] at h
    exact h
  · simp [Sentence.known_safes, hc, optTruthy] at h

theorem known_mines_truthy {s : Sentence} (h : optTruthy s.known_mines = true) :
    s.count = (s.cells.card : Int) ∧ s.cells ≠ ∅ := by
  by_cases hc : s.count = (s.cells.card : Int)
  · refine ⟨hc, ?_⟩
    simp only [Sentence.known_mines, hc, if_true, optTruthy, decide_eq_true_eq] at h
    exact h
  · simp [Sentence.known_mines, hc, optTruthy] at h

theorem struth_safes_not_mine {B : Finset Cell} {s : Sentence}
    (ht : optTruthy s.known_safes = true) (hs : struth B s) :
    ∀ c ∈ s.cells, c ∉ B := by
  intro c hc hcB
  have h0 := (known_safes_truthy ht).1
  unfold struth at hs
  rw [h0] at hs
  have h1 : (s.cells ∩ B).card = 0 := by omega
  have h2 : c ∈ s.cells ∩ B := Finset.mem_inter.mpr ⟨hc, hcB⟩
  rw [Finset.card_eq_zero] at h1
  rw [h1] at h2
  exact absurd h2 (Finset.not_mem_empty c)

theorem struth_mines_mine {B : Finset Cell} {s : Sentence}
    (ht : optTruthy s.known_mines = true) (hs : struth B s) :
    ∀ c ∈ s.cells, c ∈ B := by
  intro c hc
  have h0 := (known_mines_truthy ht).1
  unfold struth at hs
  rw [h0] at hs
  have h1 : (s.cells ∩ B).card = s.cells.card := by omega
  have h2 : s.cells ∩ B = s.cells :=
    Finset.eq_of_subset_of_card_le Finset.inter_subset_left (le_of_eq h1.symm)
  have h3 : c ∈ s.cells ∩ B := h2.symm ▸ hc
  exact (Finset.mem_inter.mp h3).2

theorem mem_addNewInference {k acc : List Sentence} {inf x : Sentence}
    (h : x ∈ addNewInference k acc inf) : x ∈ acc ∨ x = inf := by
  unfold addNewInference at h
  split at h
  · rcases List.mem_append.mp h with h | h
    · exact Or.inl h
    · exact Or.inr (List.mem_singleton.mp h)
  · exact Or.inl h

theorem buildInferences_struth {B : Finset Cell} {k : List Sentence} {s : Sentence}
    (hk : ∀ x ∈ k, struth B x) (hs : struth B s) :
    ∀ inf ∈ buildInferences k s, struth B inf := by
  unfold buildInferences
  suffices h : ∀ (k' : List Sentence) (acc : List Sentence),
      (∀ x ∈ k', struth B x) → (∀ x ∈ acc, struth B x) →
      ∀ inf ∈ k'.foldl (inferStep k s) acc, struth B inf by
    intro inf hinf
    exact h k [] hk (by simp) inf hinf
  intro k'
  induction k' with
  | nil => intro acc _ hacc inf hinf; exact hacc inf hinf
  | cons other rest ih =>
    intro acc hk' hacc inf hinf
    simp only [List.foldl_cons] at hinf
    refine ih _ (fun x hx => hk' x (List.mem_cons_of_mem _ hx)) ?_ inf hinf
    intro x hx
    have hother : struth B other := hk' other (List.mem_cons_self _ _)
    unfold inferStep at hx
    split at hx
    · next hsub =>
      rcases mem_addNewInference hx with hx | rfl
      · exact hacc x hx
      · exact struth_sdiff hsub hs hother
    · split at hx
      · next hsub =>
        rcases mem_addNewInference hx with hx | rfl
        · exact hacc x hx
        · exact struth_sdiff hsub hother hs
      · exact hacc x hx

/-! ### Characterizing the neighbour enumeration of `add_knowledge` -/

/-- The in-bounds part of the 3x3 box around a cell (including the cell
itself, which `add_knowledge` skips because it is already in `safes`). -/
def nbhd (hgt wdt : Int) (c : Cell) : Finset Cell :=
  ((boxList c).filter (fun p => decide (inBounds hgt wdt p))).toFinset

theorem boxList_nodup (c : Cell) : (boxList c).Nodup := by
  obtain ⟨x, y⟩ := c
  simp [boxList, List.nodup_cons, Prod.mk.injEq]
  omega

theorem foldl_surroundStep (hgt wdt : Int) (S M : Finset Cell) :
    ∀ (l : List Cell) (A : Finset Cell) (k : Int),
      (l.foldl (surroundStep hgt wdt S M) (A, k)).1 =
        A ∪ (l.filter (fun p => decide (inBounds hgt wdt p ∧ p ∉ S ∧ p ∉ M))).toFinset ∧
      (l.foldl (surroundStep hgt wdt S M) (A, k)).2 =
        k - ((l.countP (fun p => decide (inBounds hgt wdt p ∧ p ∉ S ∧ p ∈ M))) : Int) := by
  intro l
  induction l with
  | nil => intro A k; simp
  | cons p l ih =>
    intro A k
    rw [List.foldl_cons, List.filter_cons, List.countP_cons]
    by_cases h1 : inBounds hgt wdt p
    · by_cases h2 : p ∈ S
      · have hc1 : decide (inBounds hgt wdt p ∧ p ∉ S ∧ p ∉ M) = false := by
          simp [h1, h2]
        have hc2 : decide (inBounds hgt wdt p ∧ p ∉ S ∧ p ∈ M) = false := by
          simp [h1, h2]
        have hstep : surroundStep hgt wdt S M (A, k) p = (A, k) := by
          simp [surroundStep, h1, h2]
        rw [hstep, hc1, hc2]
        have e := ih A k
        simpa using e
      · by_cases h3 : p ∈ M
        · have hc1 : decide (inBounds hgt wdt p ∧ p ∉ S ∧ p ∉ M) = false := by
            simp [h1, h2, h3]
          have hc2 : decide (inBounds hgt wdt p ∧ p ∉ S ∧ p ∈ M) = true := by
            simp [h1, h2, h3]
          have hstep : surroundStep hgt wdt S M (A, k) p = (A, k - 1) := by
            simp [surroundStep, h1, h2, h3]
          rw [hstep, hc1, hc2]
          have e := ih A (k - 1)
          refine ⟨by simpa using e.1, ?_⟩
          rw [e.2]
          simp only [if_true]
          push_cast
          ring
        · have hc1 : decide (inBounds hgt wdt p ∧ p ∉ S ∧ p ∉ M) = true := by
            simp [h1, h2, h3]
          have hc2 : decide (inBounds hgt wdt p ∧ p ∉ S ∧ p ∈ M) = false := by
            simp [h1, h2, h3]
          have hstep : surroundStep hgt wdt S M (A, k) p = (insert p A, k) := by
            simp [surroundStep, h1, h2, h3]
          rw [hstep, hc1, hc2]
          have e := ih (insert p A) k
          refine ⟨?_, by simpa using e.2⟩
          rw [e.1, if_pos rfl, List.toFinset_cons, Finset.insert_union, Finset.union_insert]
    · have hc1 : decide (inBounds hgt wdt p ∧ p ∉ S ∧ p ∉ M) = false := by
        simp [h1]
      have hc2 : decide (inBounds hgt wdt p ∧ p ∉ S ∧ p ∈ M) = false := by
        simp [h1]
      have hstep : surroundStep hgt wdt S M (A, k) p = (A, k) := by
        simp [surroundStep, h1]
      rw [hstep, hc1, hc2]
      have e := ih A k
      simpa using e

theorem countP_eq_card_filter_toFinset (l : List Cell) (hnd : l.Nodup) (f : Cell → Bool) :
    l.countP f = (l.filter f).toFinset.card := by
  rw [List.toFinset_card_of_nodup (hnd.filter f), List.countP_eq_length_filter]

theorem countP_split_mines (hgt wdt : Int) (S M B : Finset Cell)
    (hM : M ⊆ B) (hS : ∀ x ∈ S, x ∉ B) :
    ∀ l : List Cell,
      l.countP (fun p => decide (inBounds hgt wdt p ∧ p ∈ B)) =
        l.countP (fun p => decide (inBounds hgt wdt p ∧ p ∉ S ∧ p ∈ M)) +
        l.countP (fun p => decide (inBounds hgt wdt p ∧ p ∉ S ∧ p ∉ M ∧ p ∈ B)) := by
  have t1 : (if (true : Bool) = true then (1 : Nat) else 0) = 1 := rfl
  have t0 : (if (false : Bool) = true then (1 : Nat) else 0) = 0 := rfl
  intro l
  induction l with
  | nil => simp
  | cons p l ih =>
    rw [List.countP_cons, List.countP_cons, List.countP_cons]
    by_cases h1 : inBounds hgt wdt p
    · by_cases h2 : p ∈ B
      · have h4 : p ∉ S := fun hp => hS p hp h2
        by_cases h3 : p ∈ M
        · have b1 : decide (inBounds hgt wdt p ∧ p ∈ B) = true := by simp [h1, h2]
          have b2 : decide (inBounds hgt wdt p ∧ p ∉ S ∧ p ∈ M) = true := by
            simp [h1, h4, h3]
          have b3 : decide (inBounds hgt wdt p ∧ p ∉ S ∧ p ∉ M ∧ p ∈ B) = false := by
            simp [h3]
          simp only [b1, b2, b3, t1, t0]
          omega
        · have b1 : decide (inBounds hgt wdt p ∧ p ∈ B) = true := by simp [h1, h2]
          have b2 : decide (inBounds hgt wdt p ∧ p ∉ S ∧ p ∈ M) = false := by
            simp [h3]
          have b3 : decide (inBounds hgt wdt p ∧ p ∉ S ∧ p ∉ M ∧ p ∈ B) = true := by
            simp [h1, h4, h3, h2]
          simp only [b1, b2, b3, t1, t0]
          omega
      · have h3 : p ∉ M := fun hp => h2 (hM hp)
        have b1 : decide (inBounds hgt wdt p ∧ p ∈ B) = false := by simp [h2]
        have b2 : decide (inBounds hgt wdt p ∧ p ∉ S ∧ p ∈ M) = false := by simp [h3]
        have b3 : decide (inBounds hgt wdt p ∧ p ∉ S ∧ p ∉ M ∧ p ∈ B) = false := by
          simp [h2]
        simp only [b1, b2, b3, t1, t0]
        omega
    · have b1 : decide (inBounds hgt wdt p ∧ p ∈ B) = false := by simp [h1]
      have b2 : decide (inBounds hgt wdt p ∧ p ∉ S ∧ p ∈ M) = false := by simp [h1]
      have b3 : decide (inBounds hgt wdt p ∧ p ∉ S ∧ p ∉ M ∧ p ∈ B) = false := by
        simp [h1]
      simp only [b1, b2, b3, t1, t0]
      omega

theorem buildSurrounding_struth (hgt wdt : Int) (S M B : Finset Cell) (c : Cell) (k : Int)
    (hM : M ⊆ B) (hS : ∀ x ∈ S, x ∉ B)
    (hk : k = ((nbhd hgt wdt c ∩ B).card : Int)) :
    struth B ⟨(buildSurrounding hgt wdt S M c k).1, (buildSurrounding hgt wdt S M c k).2⟩ := by
  obtain ⟨e1, e2⟩ := foldl_surroundStep hgt wdt S M (boxList c) ∅ k
  unfold struth buildSurrounding
  simp only []
  rw [show (boxList c).foldl (surroundStep hgt wdt S M) (∅, k) =
      ((boxList c).foldl (surroundStep hgt wdt S M) (∅, k)) from rfl]
  rw [e1, e2, Finset.empty_union]
  have hnd := boxList_nodup c
  have e3 : (List.filter (fun p => decide (inBounds hgt wdt p ∧ p ∉ S ∧ p ∉ M))
        (boxList c)).toFinset ∩ B =
      (List.filter (fun p => decide (inBounds hgt wdt p ∧ p ∉ S ∧ p ∉ M ∧ p ∈ B))
        (boxList c)).toFinset := by
    ext x
    simp only [Finset.mem_inter, List.mem_toFinset, List.mem_filter, decide_eq_true_eq]
    tauto
  rw [e3]
  have e4 := countP_eq_card_filter_toFinset (boxList c) hnd
    (fun p => decide (inBounds hgt wdt p ∧ p ∉ S ∧ p ∉ M ∧ p ∈ B))
  rw [← e4]
  have e5 : nbhd hgt wdt c ∩ B =
      (List.filter (fun p => decide (inBounds hgt wdt p ∧ p ∈ B)) (boxList c)).toFinset := by
    unfold nbhd
    ext x
    simp only [Finset.mem_inter, List.mem_toFinset, List.mem_filter, decide_eq_true_eq]
    tauto
  have e6 := countP_eq_card_filter_toFinset (boxList c) hnd
    (fun p => decide (inBounds hgt wdt p ∧ p ∈ B))
  have e7 := countP_split_mines hgt wdt S M B hM hS (boxList c)
  rw [hk, e5, ← e6]
  omega

/-! ### The soundness invariant -/

/-- Soundness invariant `SInv B st`: the state is sound for ground-truth mine set `B`: every
marked mine really is in `B`, no marked safe is in `B`, and every
sentence in the knowledge base is true of `B`. -/
def SInv (B : Finset Cell) (st : MinesweeperAI) : Prop :=
  st.mines ⊆ B ∧ (∀ c ∈ st.safes, c ∉ B) ∧ ∀ s ∈ st.knowledge, struth B s

/-- Precondition under which a command preserves soundness: marks must
carry true facts, integrated sentences must be true, and `add_knowledge`
must receive the true count of mines in the in-bounds box. -/
def CmdPre (B : Finset Cell) (st : MinesweeperAI) : Cmd → Prop
  | .markMine c => c ∈ B
  | .markMineLoop c _ => c ∈ B
  | .markSafe c => c ∉ B
  | .markSafeLoop c _ => c ∉ B
  | .markList mine l => ∀ c ∈ l, (mine = true → c ∈ B) ∧ (mine = false → c ∉ B)
  | .isConclusive s => struth B s
  | .cii s => struth B s
  | .ciiList l => ∀ x ∈ l, struth B x
  | .addKnowledge c k => c ∉ B ∧ k = (((nbhd st.height st.width c) ∩ B).card : Int)

/-- Soundness: every completed execution whose command precondition
holds preserves the soundness invariant. -/
theorem run_sound (B : Finset Cell) :
    ∀ (fuel : Nat) (st : MinesweeperAI) (cmd : Cmd) (r : MinesweeperAI × Bool),
      run fuel st cmd = some r → SInv B st → CmdPre B st cmd → SInv B r.1 := by
  intro fuel
  induction fuel with
  | zero => intro st cmd r h; simp [run] at h
  | succ f ih =>
    intro st cmd r h hinv hpre
    cases cmd with
    | markMine cell =>
      simp only [run] at h
      refine ih _ _ _ h ⟨?_, hinv.2.1, hinv.2.2⟩ hpre
      exact Finset.insert_subset_iff.mpr ⟨hpre, hinv.1⟩
    | markMineLoop cell i =>
      simp only [run] at h
      split at h
      · simp only [Option.some.injEq] at h
        subst h
        exact hinv
      · next s hk =>
        have hsmem : s ∈ st.knowledge := List.getElem?_mem hk
        have hss : struth B s := hinv.2.2 s hsmem
        split at h
        · next s1 hm =>
          split at h
          · simp at h
          · next p hr1 =>
            have hs1 : struth B s1 := by
              have := struth_mark_mine hpre hss
              rw [hm] at this
              exact this
            have hinv1 : SInv B { st with knowledge := (st.knowledge.set i s1).erase s1 } := by
              refine ⟨hinv.1, hinv.2.1, ?_⟩
              intro t ht
              rcases mem_set_erase ht with h3 | ⟨rfl, h3⟩
              · exact hinv.2.2 t h3
              · exact hs1
            exact ih _ _ _ h (ih _ _ _ hr1 hinv1 hs1) hpre
        · next s1 hm =>
          exact ih _ _ _ h hinv hpre
    | markSafe cell =>
      simp only [run] at h
      refine ih _ _ _ h ⟨hinv.1, ?_, hinv.2.2⟩ hpre
      intro c hc
      rcases Finset.mem_insert.mp hc with rfl | hc
      · exact hpre
      · exact hinv.2.1 c hc
    | markSafeLoop cell i =>
      simp only [run] at h
      split at h
      · simp only [Option.some.injEq] at h
        subst h
        exact hinv
      · next s hk =>
        have hsmem : s ∈ st.knowledge := List.getElem?_mem hk
        have hss : struth B s := hinv.2.2 s hsmem
        split at h
        · next s1 hm =>
          split at h
          · simp at h
          · next p hr1 =>
            have hs1 : struth B s1 := by
              have := struth_mark_safe hpre hss
              rw [hm] at this
              exact this
            have hinv1 : SInv B { st with knowledge := (st.knowledge.set i s1).erase s1 } := by
              refine ⟨hinv.1, hinv.2.1, ?_⟩
              intro t ht
              rcases mem_set_erase ht with h3 | ⟨rfl, h3⟩
              · exact hinv.2.2 t h3
              · exact hs1
            exact ih _ _ _ h (ih _ _ _ hr1 hinv1 hs1) hpre
        · next s1 hm =>
          exact ih _ _ _ h hinv hpre
    | markList mine cells =>
      cases cells with
      | nil =>
        simp only [run, Option.some.injEq] at h
        subst h
        exact hinv
      | cons c rest =>
        simp only [run] at h
        split at h
        · simp at h
        · next p hr1 =>
          have hc := hpre c (List.mem_cons_self _ _)
          have hrest : ∀ x ∈ rest, (mine = true → x ∈ B) ∧ (mine = false → x ∉ B) :=
            fun x hx => hpre x (List.mem_cons_of_mem _ hx)
          have hp : SInv B p.1 := by
            cases mine with
            | false =>
              simp only [Bool.false_eq_true, if_false] at hr1
              exact ih _ _ _ hr1 hinv (hc.2 rfl)
            | true =>
              simp only [if_true] at hr1
              exact ih _ _ _ hr1 hinv (hc.1 rfl)
          exact ih _ _ _ h hp hrest
    | isConclusive s =>
      simp only [run] at h
      split at h
      · next ht =>
        split at h
        · simp at h
        · next p hr1 =>
          simp only [Option.some.injEq] at h
          have hpre2 : CmdPre B st (.markList false (cellList s.cells)) := by
            intro c hc
            have hcs : c ∈ s.cells := mem_cellList.mp hc
            constructor
            · intro hb
              exact nomatch hb
            · intro _
              exact struth_safes_not_mine ht hpre c hcs
          have hres := ih _ _ p hr1 hinv hpre2
          rw [← h]
          exact hres
      · split at h
        · next ht =>
          split at h
          · simp at h
          · next p hr1 =>
            simp only [Option.some.injEq] at h
            have hpre2 : CmdPre B st (.markList true (cellList s.cells)) := by
              intro c hc
              have hcs : c ∈ s.cells := mem_cellList.mp hc
              constructor
              · intro _
                exact struth_mines_mine ht hpre c hcs
              · intro hb
                exact nomatch hb
            have hres := ih _ _ p hr1 hinv hpre2
            rw [← h]
            exact hres
        · simp only [Option.some.injEq] at h
          subst h
          exact hinv
    | cii s =>
      simp only [run] at h
      split at h
      · simp only [Option.some.injEq] at h
        subst h
        exact hinv
      · next hcond =>
        split at h
        · simp at h
        · next st1 hr1 =>
          simp only [Option.some.injEq] at h
          have hres := ih _ _ (st1, true) hr1 hinv hpre
          rw [← h]
          exact hres
        · next st1 hr1 =>
          have hinv1 : SInv B st1 := ih _ _ (st1, false) hr1 hinv hpre
          have hinv2 : SInv B { st1 with knowledge := st1.knowledge ++ [s] } := by
            refine ⟨hinv1.1, hinv1.2.1, ?_⟩
            intro t ht
            rcases List.mem_append.mp ht with ht | ht
            · exact hinv1.2.2 t ht
            · rw [List.mem_singleton.mp ht]
              exact hpre
          refine ih _ _ _ h hinv2 ?_
          exact buildInferences_struth hinv1.2.2 hpre
    | ciiList l =>
      cases l with
      | nil =>
        simp only [run, Option.some.injEq] at h
        subst h
        exact hinv
      | cons s rest =>
        simp only [run] at h
        split at h
        · simp at h
        · next p hr1 =>
          have hp : SInv B p.1 :=
            ih _ _ _ hr1 hinv (hpre s (List.mem_cons_self _ _))
          exact ih _ _ _ h hp fun x hx => hpre x (List.mem_cons_of_mem _ hx)
    | addKnowledge cell count =>
      simp only [run] at h
      split at h
      · simp at h
      · next p hr1 =>
        have hp : SInv B p.1 := ih _ _ _ hr1 hinv hpre.1
        have hmono := (run_frame _ _ _ _ hr1).1
        have hh : p.1.height = st.height := hmono.1
        have hw : p.1.width = st.width := hmono.2.1
        refine ih _ _ _ h hp ?_
        show struth B _
        refine buildSurrounding_struth p.1.height p.1.width p.1.safes p.1.mines B cell count
          hp.1 hp.2.1 ?_
        rw [hh, hw]
        exact hpre.2

/-! ### Reachable states under the caller contract -/

theorem erase_inter_of_not_mem {A B : Finset Cell} {c : Cell} (hc : c ∉ B) :
    A.erase c ∩ B = A ∩ B := by
  ext x
  simp only [Finset.mem_inter, Finset.mem_erase]
  constructor
  · tauto
  · intro hx
    exact ⟨⟨fun he => hc (he ▸ hx.2), hx.1⟩, hx.2⟩

/-- The true number of mines adjacent to `c` (in-bounds neighbours of
`c`, excluding `c` itself) for ground-truth mine set `B` — what
`Minesweeper.nearby_mines` reports. -/
def trueNearby (B : Finset Cell) (hgt wdt : Int) (c : Cell) : Nat :=
  (((nbhd hgt wdt c).erase c) ∩ B).card

/-- The states reachable from a fresh `MinesweeperAI` by `add_knowledge`
calls that respect the caller contract: each reported cell is not a mine
and the reported count is the true adjacent-mine count. -/
inductive Reaches (B : Finset Cell) (hgt wdt : Int) : MinesweeperAI → Prop
  | start : Reaches B hgt wdt (MinesweeperAI.start hgt wdt)
  | step (st st' : MinesweeperAI) (cell : Cell) (count : Int) (fuel : Nat) :
      Reaches B hgt wdt st → cell ∉ B →
      count = (trueNearby B hgt wdt cell : Int) →
      add_knowledge fuel st cell count = some st' →
      Reaches B hgt wdt st'

theorem reaches_sound {B : Finset Cell} {hgt wdt : Int} {st : MinesweeperAI}
    (h : Reaches B hgt wdt st) :
    SInv B st ∧ st.height = hgt ∧ st.width = wdt := by
  induction h with
  | start =>
    refine ⟨⟨Finset.empty_subset B, ?_, ?_⟩, rfl, rfl⟩
    · intro c hc
      exact absurd hc (Finset.not_mem_empty c)
    · intro s hs
      exact absurd hs (List.not_mem_nil s)
  | step st st' cell count fuel hr hcB hcount hak ih =>
    unfold add_knowledge at hak
    rcases Option.map_eq_some'.mp hak with ⟨r, hrun, hr1⟩
    have hpre : CmdPre B st (.addKnowledge cell count) := by
      refine ⟨hcB, ?_⟩
      rw [hcount, ih.2.1, ih.2.2]
      unfold trueNearby
      rw [erase_inter_of_not_mem hcB]
    have hsound := run_sound B fuel st (.addKnowledge cell count) r hrun ih.1 hpre
    have hmono := (run_frame fuel st _ r hrun).1
    subst hr1
    exact ⟨hsound, hmono.1.trans ih.2.1, hmono.2.1.trans ih.2.2⟩

/-! ### Claim theorems -/

/-- Claim C2: for every reachable state of a `MinesweeperAI` instance
(any sequence of `add_knowledge` calls in which the reported cells are
non-mines and the reported counts are the true adjacent-mine counts for
ground truth `B`), `mines` and `safes` are disjoint. -/
theorem claim_c2_mines_safes_disjoint (B : Finset Cell) (hgt wdt : Int)
    (st : MinesweeperAI) (h : Reaches B hgt wdt st) :
    st.mines ∩ st.safes = ∅ := by
  obtain ⟨hinv, -, -⟩ := reaches_sound h
  ext c
  simp only [Finset.mem_inter, Finset.not_mem_empty, iff_false, not_and]
  intro hcm hcs
  exact hinv.2.1 c hcs (hinv.1 hcm)

/-- Witness for C2: a concrete reachable state on a 2x2 board with the
single mine at `(0,0)`, after truthfully revealing `(1,1)` with count 1. -/
theorem claim_c2_witness :
    (⟨2, 2, {(1, 1)}, ∅, {(1, 1)}, [⟨{(1, 0), (0, 1), (0, 0)}, 1⟩]⟩ : MinesweeperAI).mines ∩
      (⟨2, 2, {(1, 1)}, ∅, {(1, 1)}, [⟨{(1, 0), (0, 1), (0, 0)}, 1⟩]⟩ : MinesweeperAI).safes =
      ∅ :=
  claim_c2_mines_safes_disjoint {(0, 0)} 2 2 _
    (Reaches.step (MinesweeperAI.start 2 2) _ (1, 1) 1 20 Reaches.start (by decide)
      (by decide) (by decide))

/-- Claim C3: in every reachable state under the caller contract, every
sentence in the knowledge base satisfies `0 <= count <= |cells|`. -/
theorem claim_c3_count_bounds (B : Finset Cell) (hgt wdt : Int)
    (st : MinesweeperAI) (h : Reaches B hgt wdt st) :
    ∀ s ∈ st.knowledge, 0 ≤ s.count ∧ s.count ≤ (s.cells.card : Int) := by
  obtain ⟨hinv, -, -⟩ := reaches_sound h
  intro s hs
  have ht := hinv.2.2 s hs
  have hle : (s.cells ∩ B).card ≤ s.cells.card :=
    Finset.card_le_card Finset.inter_subset_left
  unfold struth at ht
  omega

/-- Witness for C3 at the same concrete reachable state as the C2
witness, specialized to its one knowledge sentence. -/
theorem claim_c3_witness :
    0 ≤ (⟨{(1, 0), (0, 1), (0, 0)}, 1⟩ : Sentence).count ∧
      (⟨{(1, 0), (0, 1), (0, 0)}, 1⟩ : Sentence).count ≤
        ((⟨{(1, 0), (0, 1), (0, 0)}, 1⟩ : Sentence).cells.card : Int) :=
  claim_c3_count_bounds {(0, 0)} 2 2
    (⟨2, 2, {(1, 1)}, ∅, {(1, 1)}, [⟨{(1, 0), (0, 1), (0, 0)}, 1⟩]⟩ : MinesweeperAI)
    (Reaches.step (MinesweeperAI.start 2 2) _ (1, 1) 1 20 Reaches.start (by decide)
      (by decide) (by decide))
    ⟨{(1, 0), (0, 1), (0, 0)}, 1⟩ (by decide)

/-- Claim C8: `conclude_infer_integrate` is idempotent on duplicates —
integrating a sentence that is already in `knowledge` (by value
equality) returns the state unchanged. -/
theorem claim_c8_idempotent (fuel : Nat) (st : MinesweeperAI) (s : Sentence)
    (h : s ∈ st.knowledge) :
    conclude_infer_integrate (fuel + 1) st s = some st := by
  unfold conclude_infer_integrate
  simp [run, h]

/-- Witness for C8 at a concrete state. -/
theorem claim_c8_witness :
    conclude_infer_integrate 10 ⟨3, 3, ∅, ∅, ∅, [⟨{(0, 0), (0, 1)}, 1⟩]⟩
      ⟨{(0, 0), (0, 1)}, 1⟩ = some ⟨3, 3, ∅, ∅, ∅, [⟨{(0, 0), (0, 1)}, 1⟩]⟩ :=
  claim_c8_idempotent 9 ⟨3, 3, ∅, ∅, ∅, [⟨{(0, 0), (0, 1)}, 1⟩]⟩ ⟨{(0, 0), (0, 1)}, 1⟩
    (by decide)

/-- Claim C10: integrating a constraint whose cell set equals an existing
one but whose count differs raises no error: both contradictory
sentences end up in `knowledge`, the derived inference is the empty
sentence with count `-1`, and the empty-sentence filter of the recursive
call silently discards any empty sentence. -/
theorem claim_c10_contradiction_tolerated :
    buildInferences [⟨{(0, 0), (0, 1), (0, 2)}, 1⟩] ⟨{(0, 0), (0, 1), (0, 2)}, 2⟩ =
      [⟨∅, -1⟩] ∧
    conclude_infer_integrate 10 ⟨3, 3, ∅, ∅, ∅, [⟨{(0, 0), (0, 1), (0, 2)}, 1⟩]⟩
      ⟨{(0, 0), (0, 1), (0, 2)}, 2⟩ =
      some ⟨3, 3, ∅, ∅, ∅,
        [⟨{(0, 0), (0, 1), (0, 2)}, 1⟩, ⟨{(0, 0), (0, 1), (0, 2)}, 2⟩]⟩ ∧
    ∀ (fuel : Nat) (st : MinesweeperAI) (k : Int),
      conclude_infer_integrate (fuel + 1) st ⟨∅, k⟩ = some st := by
  refine ⟨by decide, by decide, ?_⟩
  intro fuel st k
  unfold conclude_infer_integrate
  simp [run, Sentence.is_empty]

/-- Claim C5: with knowledge exactly `{A,B,C}=1`, integrating `{A,B}=1`
derives `{C}=0` by the subset rule and ends with `C` marked safe
(here `A=(0,0)`, `B=(0,1)`, `C=(0,2)`). -/
theorem claim_c5_subset_inference :
    buildInferences [⟨{(0, 0), (0, 1), (0, 2)}, 1⟩] ⟨{(0, 0), (0, 1)}, 1⟩ =
      [⟨{(0, 2)}, 0⟩] ∧
    conclude_infer_integrate 10 ⟨3, 3, ∅, ∅, ∅, [⟨{(0, 0), (0, 1), (0, 2)}, 1⟩]⟩
      ⟨{(0, 0), (0, 1)}, 1⟩ =
      some ⟨3, 3, ∅, ∅, {(0, 2)}, [⟨{(0, 0), (0, 1)}, 1⟩]⟩ ∧
    (0, 2) ∈ (⟨3, 3, ∅, ∅, {(0, 2)}, [⟨{(0, 0), (0, 1)}, 1⟩]⟩ : MinesweeperAI).safes :=
  ⟨by decide, by decide, by decide⟩

/-- Counterexample for Claim C4: on the empty sentence with count 0,
`known_mines` returns the empty set (`some ∅`), not the `None`
no-information result the claim asserts. -/
theorem claim_c4_counterexample :
    Sentence.known_mines ⟨∅, 0⟩ = some ∅ ∧ Sentence.known_mines ⟨∅, 0⟩ ≠ none :=
  ⟨by decide, by decide⟩

/-- Claim C4 as amended: on the empty sentence with count 0,
`known_mines` returns its empty cell set, which is falsy under the
truthiness test used by `is_conclusive`; and every non-resolvable
sentence (`0 < count < |cells|`) gets `None` from both `known_mines` and
`known_safes`. -/
theorem claim_c4_no_information :
    Sentence.known_mines ⟨∅, 0⟩ = some ∅ ∧
    optTruthy (Sentence.known_mines ⟨∅, 0⟩) = false ∧
    ∀ s : Sentence, 0 < s.count → s.count < (s.cells.card : Int) →
      Sentence.known_mines s = none ∧ Sentence.known_safes s = none := by
  refine ⟨by decide, by decide, ?_⟩
  intro s h1 h2
  constructor
  · unfold Sentence.known_mines
    rw [if_neg]
    omega
  · unfold Sentence.known_safes
    rw [if_neg]
    omega

/-- Witness for the amended C4 at a concrete non-resolvable sentence. -/
theorem claim_c4_witness :
    Sentence.known_mines ⟨{(0, 0), (0, 1)}, 1⟩ = none ∧
      Sentence.known_safes ⟨{(0, 0), (0, 1)}, 1⟩ = none :=
  claim_c4_no_information.2.2 ⟨{(0, 0), (0, 1)}, 1⟩ (by decide) (by decide)

/-- Claim C1 (evaluating the code at the failing input): starting from
knowledge `[{(0,0),(0,1)}=1, {(0,0),(0,2)}=1]`, `mark_mine (0,0)`
returns with `{(0,0),(0,2)}=1` still in `knowledge`: the loop removes
the first sentence from the list it is iterating over, so the second
sentence is skipped and keeps the marked cell, violating the claimed
post-state. -/
theorem claim_c1_stale_sentence :
    MinesweeperAI.mark_mine 20
        ⟨3, 3, ∅, ∅, ∅, [⟨{(0, 0), (0, 1)}, 1⟩, ⟨{(0, 0), (0, 2)}, 1⟩]⟩ (0, 0) =
      some ⟨3, 3, ∅, {(0, 0)}, {(0, 1)}, [⟨{(0, 0), (0, 2)}, 1⟩]⟩ ∧
    (⟨{(0, 0), (0, 2)}, 1⟩ : Sentence) ∈
      (⟨3, 3, ∅, {(0, 0)}, {(0, 1)}, [⟨{(0, 0), (0, 2)}, 1⟩]⟩ : MinesweeperAI).knowledge ∧
    (0, 0) ∈ (⟨{(0, 0), (0, 2)}, 1⟩ : Sentence).cells ∧
    (0, 0) ∈ (⟨3, 3, ∅, {(0, 0)}, {(0, 1)}, [⟨{(0, 0), (0, 2)}, 1⟩]⟩ : MinesweeperAI).mines :=
  ⟨by decide, by decide, by decide, by decide⟩

/-- If `is_conclusive` returns `True`, one of the two resolvability
checks fired. -/
theorem isConclusive_true_char {fuel : Nat} {st st1 : MinesweeperAI} {s : Sentence}
    (h : run fuel st (.isConclusive s) = some (st1, true)) :
    optTruthy s.known_safes = true ∨ optTruthy s.known_mines = true := by
  cases fuel with
  | zero => simp [run] at h
  | succ f =>
    simp only [run] at h
    split at h
    · next h1 => exact Or.inl h1
    · split at h
      · next h2 => exact Or.inr h2
      · simp at h

/-- Claim C6: integrating the single-cell constraint `{(0,0)}=1` into an
empty knowledge base marks `(0,0)` as a mine and leaves `knowledge`
empty; and in general, whenever the resolvability check of
`is_conclusive` fires, `conclude_infer_integrate` returns the marking
state itself — the integrated constraint is not appended, and (as long
as the knowledge base held no consumable sentence) it is absent from the
final knowledge collection. -/
theorem claim_c6_resolution_consumed (fuel : Nat) (st st1 : MinesweeperAI) (s : Sentence)
    (h1 : s ∉ st.knowledge) (h2 : s.is_empty = false)
    (h3 : run fuel st (.isConclusive s) = some (st1, true))
    (h4 : goodKB st) :
    conclude_infer_integrate 10 (MinesweeperAI.start 3 3) ⟨{(0, 0)}, 1⟩ =
      some ⟨3, 3, ∅, {(0, 0)}, ∅, []⟩ ∧
    run (fuel + 1) st (.cii s) = some (st1, false) ∧
    s ∉ st1.knowledge := by
  refine ⟨by decide, ?_, ?_⟩
  · simp [run, h1, h2, h3]
  · have hg1 : goodKB st1 := (run_frame fuel st _ (st1, true) h3).2 h4
    intro hmem
    have hcons := hg1 s hmem
    unfold consumable at hcons
    rcases isConclusive_true_char h3 with ht | ht
    · rw [ht] at hcons
      simp at hcons
    · rw [ht] at hcons
      simp at hcons

/-- Witness for C6: the concrete single-cell resolution, instantiating
the general part at the empty knowledge base. -/
theorem claim_c6_witness :
    conclude_infer_integrate 10 (MinesweeperAI.start 3 3) ⟨{(0, 0)}, 1⟩ =
      some ⟨3, 3, ∅, {(0, 0)}, ∅, []⟩ ∧
    run 6 (MinesweeperAI.start 3 3) (Cmd.cii ⟨{(0, 0)}, 1⟩) =
      some (⟨3, 3, ∅, {(0, 0)}, ∅, []⟩, false) ∧
    (⟨{(0, 0)}, 1⟩ : Sentence) ∉ (⟨3, 3, ∅, {(0, 0)}, ∅, []⟩ : MinesweeperAI).knowledge :=
  claim_c6_resolution_consumed 5 (MinesweeperAI.start 3 3) ⟨3, 3, ∅, {(0, 0)}, ∅, []⟩
    ⟨{(0, 0)}, 1⟩ (by decide) (by decide) (by decide)
    (fun t ht => absurd ht (List.not_mem_nil t))

/-- The `(cells, count)` pair built by `add_knowledge` in claim form:
assuming the revealed cell is already in `safes` and `mines`/`safes` are
disjoint, the cell set is exactly the in-bounds neighbours (excluding
the cell itself) in neither `safes` nor `mines`, and the count is
decremented once per in-bounds neighbour in `mines`. -/
theorem buildSurrounding_shape (hgt wdt : Int) (S M : Finset Cell) (c : Cell) (k : Int)
    (hcS : c ∈ S) (hdisj : M ∩ S = ∅) :
    (buildSurrounding hgt wdt S M c k).1 = (((nbhd hgt wdt c).erase c) \ S) \ M ∧
    (buildSurrounding hgt wdt S M c k).2 =
      k - ((((nbhd hgt wdt c).erase c) ∩ M).card : Int) := by
  obtain ⟨e1, e2⟩ := foldl_surroundStep hgt wdt S M (boxList c) ∅ k
  have hMS : ∀ y ∈ M, y ∉ S := by
    intro y hy hyS
    have hmem : y ∈ M ∩ S := Finset.mem_inter.mpr ⟨hy, hyS⟩
    rw [hdisj] at hmem
    exact absurd hmem (Finset.not_mem_empty y)
  have hn : ∀ x, x ∈ nbhd hgt wdt c ↔ x ∈ boxList c ∧ inBounds hgt wdt x := by
    intro x
    unfold nbhd
    simp [List.mem_filter]
  constructor
  · show ((boxList c).foldl (surroundStep hgt wdt S M) (∅, k)).1 = _
    rw [e1, Finset.empty_union]
    ext x
    rw [Finset.mem_sdiff, Finset.mem_sdiff, Finset.mem_erase, hn x]
    simp only [List.mem_toFinset, List.mem_filter, decide_eq_true_eq]
    constructor
    · rintro ⟨hxl, hb, hxS, hxM⟩
      exact ⟨⟨⟨fun he => hxS (he ▸ hcS), hxl, hb⟩, hxS⟩, hxM⟩
    · rintro ⟨⟨⟨hne, hxl, hb⟩, hxS⟩, hxM⟩
      exact ⟨hxl, hb, hxS, hxM⟩
  · show ((boxList c).foldl (surroundStep hgt wdt S M) (∅, k)).2 = _
    rw [e2]
    have hset : (nbhd hgt wdt c).erase c ∩ M =
        ((boxList c).filter
          (fun p => decide (inBounds hgt wdt p ∧ p ∉ S ∧ p ∈ M))).toFinset := by
      ext x
      rw [Finset.mem_inter, Finset.mem_erase, hn x]
      simp only [List.mem_toFinset, List.mem_filter, decide_eq_true_eq]
      constructor
      · rintro ⟨⟨hne, hxl, hb⟩, hxM⟩
        exact ⟨hxl, hb, hMS x hxM, hxM⟩
      · rintro ⟨hxl, hb, hxS, hxM⟩
        exact ⟨⟨fun he => hxS (he ▸ hcS), hxl, hb⟩, hxM⟩
    rw [hset, ← countP_eq_card_filter_toFinset _ (boxList_nodup c) _]

/-- Claim C7: for every cell and count, `add_knowledge` records the cell
in `moves_made`, marks it safe globally, and hands `Integrate` the
sentence whose cell set is exactly the in-bounds neighbours (excluding
the cell, which is in `safes` by then) in neither `safes` nor `mines`,
with the count decremented once per in-bounds neighbour in `mines`
(stated relative to the state `st1` reached after the global
safe-marking, assuming its `mines` and `safes` are disjoint, which holds
in every reachable state). -/
theorem claim_c7_add_knowledge_shape (fuel : Nat) (st st1 : MinesweeperAI) (cell : Cell)
    (count : Int)
    (h1 : MinesweeperAI.mark_safe fuel
      { st with moves_made := insert cell st.moves_made } cell = some st1)
    (h2 : st1.mines ∩ st1.safes = ∅) :
    add_knowledge (fuel + 1) st cell count =
      conclude_infer_integrate fuel st1
        ⟨(((nbhd st.height st.width cell).erase cell) \ st1.safes) \ st1.mines,
          count - ((((nbhd st.height st.width cell).erase cell) ∩ st1.mines).card : Int)⟩ ∧
    cell ∈ st1.moves_made ∧ cell ∈ st1.safes ∧
    ∀ st2, add_knowledge (fuel + 1) st cell count = some st2 →
      cell ∈ st2.moves_made ∧ cell ∈ st2.safes := by
  unfold MinesweeperAI.mark_safe at h1
  rcases Option.map_eq_some'.mp h1 with ⟨r, hrun, hr1⟩
  cases fuel with
  | zero => simp [run] at hrun
  | succ f =>
    have hmono0 := (run_frame _ _ _ _ hrun).1
    have hh : r.1.height = st.height := hmono0.1
    have hw : r.1.width = st.width := hmono0.2.1
    have hmv : cell ∈ r.1.moves_made :=
      hmono0.2.2.1 (Finset.mem_insert_self cell st.moves_made)
    have hsf : cell ∈ r.1.safes := by
      have hrun2 := hrun
      simp only [run] at hrun2
      have hmono1 := (run_frame _ _ _ _ hrun2).1
      exact hmono1.2.2.2.2 (Finset.mem_insert_self cell _)
    subst hr1
    obtain ⟨hbs1, hbs2⟩ :=
      buildSurrounding_shape r.1.height r.1.width r.1.safes r.1.mines cell count hsf h2
    have hrun_eq : run (f + 1 + 1) st (.addKnowledge cell count) =
        run (f + 1) r.1
          (.cii ⟨(buildSurrounding r.1.height r.1.width r.1.safes r.1.mines cell count).1,
            (buildSurrounding r.1.height r.1.width r.1.safes r.1.mines cell count).2⟩) := by
      conv_lhs => rw [run, hrun]
    have heq : add_knowledge (f + 1 + 1) st cell count =
        conclude_infer_integrate (f + 1) r.1
          ⟨(((nbhd st.height st.width cell).erase cell) \ r.1.safes) \ r.1.mines,
            count - ((((nbhd st.height st.width cell).erase cell) ∩ r.1.mines).card : Int)⟩ := by
      unfold add_knowledge conclude_infer_integrate
      rw [hrun_eq]
      rw [hbs1, hbs2, hh, hw]
    refine ⟨heq, hmv, hsf, ?_⟩
    intro st2 hst2
    rw [heq] at hst2
    unfold conclude_infer_integrate at hst2
    rcases Option.map_eq_some'.mp hst2 with ⟨r2, hrun3, hr2⟩
    have hm2 := (run_frame _ _ _ _ hrun3).1
    subst hr2
    exact ⟨hm2.2.2.1 hmv, hm2.2.2.2.2 hsf⟩

/-- Witness for C7 on a 2x2 board, revealing `(0,0)` with count 0 from
the fresh state. -/
theorem claim_c7_witness :
    add_knowledge 6 (MinesweeperAI.start 2 2) (0, 0) 0 =
      conclude_infer_integrate 5 (⟨2, 2, {(0, 0)}, ∅, {(0, 0)}, []⟩ : MinesweeperAI)
        ⟨(((nbhd 2 2 (0, 0)).erase (0, 0)) \ {(0, 0)}) \ ∅,
          0 - ((((nbhd 2 2 (0, 0)).erase (0, 0)) ∩ ∅).card : Int)⟩ ∧
    (0, 0) ∈ ({(0, 0)} : Finset Cell) ∧ (0, 0) ∈ ({(0, 0)} : Finset Cell) :=
  ⟨(claim_c7_add_knowledge_shape 5 (MinesweeperAI.start 2 2)
      ⟨2, 2, {(0, 0)}, ∅, {(0, 0)}, []⟩ (0, 0) 0 (by decide) (by decide)).1,
    (claim_c7_add_knowledge_shape 5 (MinesweeperAI.start 2 2)
      ⟨2, 2, {(0, 0)}, ∅, {(0, 0)}, []⟩ (0, 0) 0 (by decide) (by decide)).2.1,
    (claim_c7_add_knowledge_shape 5 (MinesweeperAI.start 2 2)
      ⟨2, 2, {(0, 0)}, ∅, {(0, 0)}, []⟩ (0, 0) 0 (by decide) (by decide)).2.2.1⟩
